import Mathlib

/-!
Verification development for the MCQ-Subscription-APP seeding scripts.

This file gives a shallow embedding of the database-seeding logic found in
the repository's import scripts and proves the specification's testable
properties against it.

The store is modelled as an in-memory state `DB` holding the rows of the
`questions`, `options` and `attempts` tables together with an id generator.
The scripts' SQL/ORM statements are translated operation by operation:

* `deleteExistingQuestions`  — src/scripts/import.ts, lines 87-122
* `insertCandidate` / `importQuestionsBatched` — src/scripts/import.ts,
  lines 125-180 (validation, question insert, option inserts, batching)
* `reseedPartition` — the delete-then-import sequence of `processModule`,
  src/scripts/import.ts, lines 183-204
* `clearQuestionsForTopic` — src/temp_scripts/importMCQ.ts, lines 86-121
* `cleanupDatabase` — the cleanup script in src/temp_scripts/importMCQ.ts
  (lines 269-350 of the concatenated file)
* `serverImportQuestions` — src/server/scripts/importQuestions.ts
* `importModuleRun` — src/scripts/import-module.js, lines 123-225, with an
  explicit transaction/failure model
-/

namespace MCQ

/-- Row of the `questions` table (shared/schema): generated id, owning module
id, topic label, question text, difficulty, optional slide reference and
optional explanation. -/
structure Question where
  id : Nat
  module_id : String
  topic : String
  text : String
  difficulty : Nat
  slide_reference : Option String
  explanation : Option String
deriving DecidableEq, Repr

/-- Row of the `options` table: generated id, owning question id, option text
and the is-correct flag. -/
structure OptionRow where
  id : Nat
  question_id : Nat
  text : String
  is_correct : Bool
deriving DecidableEq, Repr

/-- Row of the `attempts` table, referenced by the cleanup script: it carries
a question reference and a selected-option reference. -/
structure Attempt where
  id : Nat
  questionId : Nat
  selectedOptionId : Nat
deriving DecidableEq, Repr

/-- The store state: the three tables plus the id generator used for
`RETURNING id` on inserts (fresh ids are handed out in increasing order). -/
structure DB where
  nextId : Nat
  questions : List Question
  options : List OptionRow
  attempts : List Attempt
deriving DecidableEq, Repr

/-- A source-provided candidate record, as the scripts receive it after
extracting the data literal: `question` is a string (possibly empty, JS
falsy), `options` is `none` when the field is not an array, and
`correctIndex` is `none` when the field is `undefined`. -/
structure Candidate where
  question : String
  options : Option (List String)
  correctIndex : Option Int
  slideLink : Option String
deriving DecidableEq, Repr

/-- The validation check of src/scripts/import.ts line 137:
`!item.question || !Array.isArray(item.options) || item.correctIndex === undefined`
(a record passes when the text is truthy, the options field is an array and
the correct index is defined; nothing more is checked). -/
def validCandidate (c : Candidate) : Bool :=
  !(c.question == "") && c.options.isSome && c.correctIndex.isSome

/-- Key match used by the delete statements:
`module_id = moduleId AND topic = topic`. -/
def isPartitionQ (m t : String) (q : Question) : Bool :=
  q.module_id == m && q.topic == t

/-- Embeds `deleteExistingQuestions` (src/scripts/import.ts, lines 87-122):
select the partition's questions; if none, return; otherwise delete each
question's options, then delete the partition's questions. -/
def deleteExistingQuestions (m t : String) (s : DB) : DB :=
  let questionsToDelete := s.questions.filter (isPartitionQ m t)
  if questionsToDelete.isEmpty then s
  else
    let delIds := questionsToDelete.map (fun q => q.id)
    { s with
      options := s.options.filter (fun o => !(delIds.contains o.question_id)),
      questions := s.questions.filter (fun q => !(isPartitionQ m t q)) }

/-- JavaScript `item.slideLink || null`: an absent or empty string becomes
null. -/
def slideRef (sl : Option String) : Option String :=
  match sl with
  | some v => if v == "" then none else some v
  | none => none

/-- The option-insert loop of src/scripts/import.ts lines 156-164: one
`options` row per element of the record's options array, in order, with
`is_correct := j === item.correctIndex`; `oid` is the generated id of the
next option row and `j` the loop counter. -/
def mkOptions (qid : Nat) (ci : Option Int) : Nat → Nat → List String → List OptionRow
  | _, _, [] => []
  | oid, j, txt :: rest =>
      { id := oid, question_id := qid, text := txt,
        is_correct := ci == some (j : Int) } :: mkOptions qid ci (oid + 1) (j + 1) rest

/-- Embeds the per-record insert of src/scripts/import.ts lines 142-164: one
`questions` row (difficulty 2, explanation null) followed by its option rows. -/
def insertCandidate (m t : String) (c : Candidate) (s : DB) : DB :=
  let qid := s.nextId
  let q : Question :=
    { id := qid, module_id := m, topic := t, text := c.question,
      difficulty := 2, slide_reference := slideRef c.slideLink, explanation := none }
  let os := c.options.getD []
  let opts := mkOptions qid c.correctIndex (qid + 1) 0 os
  { s with
    nextId := qid + 1 + os.length,
    questions := s.questions ++ [q],
    options := s.options ++ opts }

/-- One iteration of the record loop: validate, then insert and count, or
skip (src/scripts/import.ts lines 134-166). -/
def processItem (m t : String) (acc : DB × Nat) (c : Candidate) : DB × Nat :=
  if validCandidate c then (insertCandidate m t c acc.1, acc.2 + 1) else acc

/-- Slicing loop `for (let i = 0; i < n; i += batchSize)` realised on lists;
the fuel argument is the length of the remaining list, enough because every
round with a non-empty remainder consumes at least one element when the
batch size is positive. -/
def chunksAux {α : Type} (bs : Nat) : Nat → List α → List (List α)
  | _, [] => []
  | 0, xs => [xs]
  | fuel + 1, xs => xs.take bs :: chunksAux bs fuel (xs.drop bs)

/-- The batches `slice(i, min(i + batchSize, n))` of the record list. -/
def chunks {α : Type} (bs : Nat) (xs : List α) : List (List α) :=
  chunksAux bs xs.length xs

/-- Embeds `importQuestions` (src/scripts/import.ts, lines 125-180) with the
batch size as a parameter: process the records batch by batch, each record
validated then inserted or skipped; returns the final store and the imported
count. -/
def importQuestionsBatched (m t : String) (bs : Nat) (cands : List Candidate)
    (s : DB) : DB × Nat :=
  (chunks bs cands).foldl (fun acc batch => batch.foldl (processItem m t) acc) (s, 0)

/-- The script's `importQuestions` with its hard-coded `batchSize = 5`
(src/scripts/import.ts line 129). -/
def importQuestions (m t : String) (cands : List Candidate) (s : DB) : DB × Nat :=
  importQuestionsBatched m t 5 cands s

/-- The reseed of one partition as performed by `processModule`
(src/scripts/import.ts lines 183-204): delete the partition's existing rows,
then import the candidate records. -/
def reseedPartition (m t : String) (cands : List Candidate) (s : DB) : DB × Nat :=
  importQuestions m t cands (deleteExistingQuestions m t s)

/-- Embeds `clearQuestionsForTopic` (src/temp_scripts/importMCQ.ts, lines
86-121): same destructive phase as `deleteExistingQuestions` — select the
partition's questions, delete their options, delete the questions; the
`attempts` table is not touched. -/
def clearQuestionsForTopic (m t : String) (s : DB) : DB :=
  let existingQuestions := s.questions.filter (isPartitionQ m t)
  if existingQuestions.isEmpty then s
  else
    let delIds := existingQuestions.map (fun q => q.id)
    { s with
      options := s.options.filter (fun o => !(delIds.contains o.question_id)),
      questions := s.questions.filter (fun q => !(isPartitionQ m t q)) }

/-- Well-formedness of a store state: all row ids already handed out are
below the generator, and question ids are pairwise distinct. -/
def wellFormed (s : DB) : Prop :=
  (∀ q ∈ s.questions, q.id < s.nextId) ∧
  (∀ o ∈ s.options, o.question_id < s.nextId) ∧
  (s.questions.map (fun q => q.id)).Nodup

instance (s : DB) : Decidable (wellFormed s) := by
  unfold wellFormed; infer_instance

/-- The questions of partition (m, t) in store order. -/
def partitionQuestions (m t : String) (s : DB) : List Question :=
  s.questions.filter (isPartitionQ m t)

/-- The option rows belonging to a question id, in store order. -/
def optionsOf (s : DB) (qid : Nat) : List OptionRow :=
  s.options.filter (fun o => o.question_id == qid)

/-- Observable content of one stored question: its text, difficulty, and its
options' texts and correctness flags in order (ids abstracted away). -/
def questionContent (s : DB) (q : Question) : String × Nat × List (String × Bool) :=
  (q.text, q.difficulty, (optionsOf s q.id).map (fun o => (o.text, o.is_correct)))

/-- Observable content of a partition: the contents of its questions in
store order. -/
def partitionContent (m t : String) (s : DB) : List (String × Nat × List (String × Bool)) :=
  (partitionQuestions m t s).map (questionContent s)

/-- Expected option content generated from a candidate record: option texts
in order, the flag true exactly where the loop counter equals `correctIndex`. -/
def optionContent (ci : Option Int) : Nat → List String → List (String × Bool)
  | _, [] => []
  | j, txt :: rest => (txt, ci == some (j : Int)) :: optionContent ci (j + 1) rest

/-- Expected stored content of one candidate record after insertion. -/
def candContent (c : Candidate) : String × Nat × List (String × Bool) :=
  (c.question, 2, optionContent c.correctIndex 0 (c.options.getD []))

/-- Prefix test on character lists, used to model JavaScript
`String.prototype.includes`. -/
def startsWithChars : List Char → List Char → Bool
  | [], _ => true
  | _ :: _, [] => false
  | p :: ps, x :: xs => p == x && startsWithChars ps xs

/-- Substring occurrence test on character lists: the pattern occurs at some
position of the text. -/
def hasInfixChars (pat : List Char) : List Char → Bool
  | [] => startsWithChars pat []
  | x :: xs => startsWithChars pat (x :: xs) || hasInfixChars pat xs

/-- JavaScript `(q.text || '').toLowerCase().includes('sample')`: the
text, lowercased character by character (ASCII, which covers every text the
scripts handle), contains the substring "sample". -/
def containsSample (t : String) : Bool :=
  hasInfixChars "sample".data (t.data.map Char.toLower)

/-- JavaScript `topic.toUpperCase()`, character by character (ASCII). -/
def strToUpper (s : String) : String :=
  String.mk (s.data.map Char.toUpper)

/-- The invalidity test of the cleanup script (src/temp_scripts/importMCQ.ts,
concatenated file lines 284-288): module id not in the valid module list, or
topic not in the valid topic list, or text containing "sample". -/
def invalidQ (validModules validTopics : List String) (q : Question) : Bool :=
  !(validModules.contains q.module_id) || !(validTopics.contains q.topic) ||
    containsSample q.text

/-- Embeds the cleanup script `main` (src/temp_scripts/importMCQ.ts,
concatenated file lines 269-350): collect the invalid questions; if none,
stop; otherwise delete attempts whose selected option belongs to an invalid
question (only when such options exist), delete attempts referencing invalid
questions, delete the invalid questions' options, delete the invalid
questions. -/
def cleanupDatabase (validModules validTopics : List String) (s : DB) : DB :=
  let invalidQuestions := s.questions.filter (invalidQ validModules validTopics)
  if invalidQuestions.isEmpty then s
  else
    let invalidQuestionIds := invalidQuestions.map (fun q => q.id)
    let invalidOptions := s.options.filter (fun o => invalidQuestionIds.contains o.question_id)
    let invalidOptionIds := invalidOptions.map (fun o => o.id)
    let a1 :=
      if invalidOptionIds.isEmpty then s.attempts
      else s.attempts.filter (fun a => !(invalidOptionIds.contains a.selectedOptionId))
    let a2 := a1.filter (fun a => !(invalidQuestionIds.contains a.questionId))
    { s with
      attempts := a2,
      options := s.options.filter (fun o => !(invalidQuestionIds.contains o.question_id)),
      questions := s.questions.filter (fun q => !(invalidQuestionIds.contains q.id)) }

/-- JavaScript first-occurrence `String.prototype.replace` with an empty
replacement: drop the first occurrence of the pattern. -/
def replaceFirst (s pat : String) : String :=
  match s.splitOn pat with
  | [] => s
  | [x] => x
  | x :: rest => x ++ String.intercalate pat rest

/-- Topic derivation of src/server/scripts/importQuestions.ts line 21:
`slideLink ? slideLink.split('_').pop()?.replace('.pdf', '') || 'General' : 'General'`. -/
def derivedTopic (sl : Option String) : String :=
  match sl with
  | none => "General"
  | some v =>
      if v == "" then "General"
      else
        let last := (v.splitOn "_").getLastD ""
        let r := replaceFirst last ".pdf"
        if r == "" then "General" else r

/-- The per-record insert of src/server/scripts/importQuestions.ts lines
14-34: no validation; question row with difficulty 2, derived topic, empty
explanation, `slideLink || ''` as slide reference, then one option row per
element. -/
def serverInsert (m : String) (c : Candidate) (s : DB) : DB :=
  let qid := s.nextId
  let q : Question :=
    { id := qid, module_id := m, topic := derivedTopic c.slideLink, text := c.question,
      difficulty := 2,
      slide_reference := some (match c.slideLink with
        | some v => if v == "" then "" else v
        | none => ""),
      explanation := some "" }
  let os := c.options.getD []
  let opts := mkOptions qid c.correctIndex (qid + 1) 0 os
  { s with
    nextId := qid + 1 + os.length,
    questions := s.questions ++ [q],
    options := s.options ++ opts }

/-- Embeds `importQuestions` of src/server/scripts/importQuestions.ts
(lines 6-43): insert every record in order. -/
def serverImportQuestions (m : String) (cands : List Candidate) (s : DB) : DB :=
  cands.foldl (fun st c => serverInsert m c st) s

/-- Embeds `importQuestionsForTopic` (src/temp_scripts/importMCQ.ts, lines
124-184); its validation, inserted columns and batch size coincide with
`importQuestions` of src/scripts/import.ts, so the embedding is shared. -/
def importQuestionsForTopic (m t : String) (cands : List Candidate) (s : DB) : DB × Nat :=
  importQuestionsBatched m t 5 cands s

/-- The clearing transaction of src/scripts/import-module.js lines 135-152:
delete the partition's options, then its questions, in one committed
transaction. -/
def clearPhase (m t : String) (s : DB) : DB :=
  { s with
    options := s.options.filter (fun o =>
      !(((s.questions.filter (isPartitionQ m t)).map (fun q => q.id)).contains o.question_id)),
    questions := s.questions.filter (fun q => !(isPartitionQ m t q)) }

/-- One batch transaction of src/scripts/import-module.js lines 167-207,
with failure injection: records are processed in order with global indices;
an invalid record is skipped; a record whose index is in the failing set
makes its insert throw, rolling back the whole batch (`none`). -/
def runBatch (m t : String) (F : List Nat) : DB → List (Nat × Candidate) → Option DB
  | s, [] => some s
  | s, ic :: rest =>
      if !(validCandidate ic.2) then runBatch m t F s rest
      else if F.contains ic.1 then none
      else runBatch m t F (insertCandidate m t ic.2 s) rest

/-- The batch loop of src/scripts/import-module.js lines 157-209: each batch
commits on success; a failing batch rolls back to the last committed state
and the run stops there (the error escalates past the remaining batches). -/
def runBatches (m t : String) (F : List Nat) : DB → List (List (Nat × Candidate)) → DB
  | s, [] => s
  | s, b :: bs =>
      match runBatch m t F s b with
      | none => s
      | some s2 => runBatches m t F s2 bs

/-- Embeds `importQuestions` of src/scripts/import-module.js (lines 123-225)
under the failure set `F`: the topic is upper-cased, the clearing transaction
commits first, then the records paired with their global indices (`start + i`
of the source) run batch by batch, each batch in its own transaction. -/
def importModuleRun (m t : String) (cands : List Candidate) (bsz : Nat)
    (F : List Nat) (s : DB) : DB :=
  let ft := strToUpper t
  runBatches m ft F (clearPhase m ft s) (chunks bsz cands.enum)

/-- The record loop without batching: left fold of `processItem` over the
candidate list. -/
def importOn (m t : String) (cands : List Candidate) (acc : DB × Nat) : DB × Nat :=
  cands.foldl (processItem m t) acc

/-- Relation used for the difficulty invariant: every question of the second
store is either an untouched question of the first store or was stored with
difficulty 2. -/
def diffOk (s s' : DB) : Prop :=
  ∀ q ∈ s'.questions, q ∈ s.questions ∨ q.difficulty = 2

/-! Concrete fixtures used by witnesses and counterexamples. -/

/-- The empty store. -/
def dbEmpty : DB := { nextId := 0, questions := [], options := [], attempts := [] }

/-- Valid candidate with three options, the second one correct (the
specification's FOCS2 example record). -/
def candA : Candidate :=
  { question := "Q1", options := some ["A", "B", "C"], correctIndex := some 1,
    slideLink := none }

/-- Valid candidate with three options, the first one correct. -/
def candB : Candidate :=
  { question := "Q2", options := some ["X", "Y", "Z"], correctIndex := some 0,
    slideLink := none }

/-- The question row produced by inserting `candA` into partition (m, t) of
the empty store. -/
def qIns : Question :=
  { id := 0, module_id := "m", topic := "t", text := "Q1", difficulty := 2,
    slide_reference := none, explanation := none }

/-- Valid candidate with three options, the third one correct. -/
def candC : Candidate :=
  { question := "Q3", options := some ["U", "V", "W"], correctIndex := some 2,
    slideLink := none }

/-- A record with an empty options array: the specification's notion of a
malformed record, which nevertheless passes the code's validation. -/
def candEmptyOpts : Candidate :=
  { question := "QB", options := some [], correctIndex := some 0, slideLink := none }

/-- A record with an undefined correct index: fails the code's validation. -/
def candNoIdx : Candidate :=
  { question := "QN", options := some ["A"], correctIndex := none, slideLink := none }

/-- A record whose correct index is beyond the options array. -/
def candOutOfRange : Candidate :=
  { question := "QO", options := some ["A", "B"], correctIndex := some 5,
    slideLink := none }

/-- A stored question in partition (focs, FOCS2) whose text contains the
word "sample". -/
def qSample : Question :=
  { id := 0, module_id := "focs", topic := "FOCS2",
    text := "This is a sample question", difficulty := 2,
    slide_reference := none, explanation := none }

/-- Store holding only `qSample`. -/
def dbSample : DB := { nextId := 1, questions := [qSample], options := [], attempts := [] }

/-- Store with one (focs, FOCS2) question, its option, and one attempt
referencing both. -/
def dbDangling : DB :=
  { nextId := 2,
    questions := [{ id := 0, module_id := "focs", topic := "FOCS2", text := "old",
                    difficulty := 2, slide_reference := none, explanation := none }],
    options := [{ id := 1, question_id := 0, text := "A", is_correct := true }],
    attempts := [{ id := 0, questionId := 0, selectedOptionId := 1 }] }

/-- Store with one pre-existing question in partition (m, T). -/
def dbOld : DB :=
  { nextId := 1,
    questions := [{ id := 0, module_id := "m", topic := "T", text := "OLD",
                    difficulty := 2, slide_reference := none, explanation := none }],
    options := [], attempts := [] }

/-- Store with one question and option in partition (m2, t2), used for the
frame witness. -/
def dbOther : DB :=
  { nextId := 2,
    questions := [{ id := 0, module_id := "m2", topic := "t2", text := "keep",
                    difficulty := 2, slide_reference := none, explanation := none }],
    options := [{ id := 1, question_id := 0, text := "K", is_correct := true }],
    attempts := [] }

/-! Helper lemmas. -/

/-- The early-return branch of `deleteExistingQuestions` coincides with the
branch-free clearing transaction of import-module.js. -/
theorem deleteExistingQuestions_eq (m t : String) (s : DB) :
    deleteExistingQuestions m t s = clearPhase m t s := by
  unfold deleteExistingQuestions clearPhase
  by_cases h : (s.questions.filter (isPartitionQ m t)).isEmpty
  · rw [if_pos h]
    rw [List.isEmpty_iff] at h
    have e1 : s.questions.filter (fun q => !(isPartitionQ m t q)) = s.questions := by
      rw [List.filter_eq_self]
      intro q hmem
      have hne : isPartitionQ m t q = false := by
        by_contra hP
        have hP' : isPartitionQ m t q = true := by
          cases hb : isPartitionQ m t q
          · exact absurd hb hP
          · rfl
        have : q ∈ s.questions.filter (isPartitionQ m t) :=
          List.mem_filter.mpr ⟨hmem, hP'⟩
        rw [h] at this
        exact (List.not_mem_nil q) this
      simp [hne]
    have e2 : s.options.filter (fun o =>
        !(((s.questions.filter (isPartitionQ m t)).map (fun q => q.id)).contains
          o.question_id)) = s.options := by
      rw [List.filter_eq_self]
      intro o _
      rw [h]
      simp
    rw [e1, e2]
  · rw [if_neg h]

/-- The clearing code of importMCQ.ts is the same operation. -/
theorem clearQuestionsForTopic_eq (m t : String) (s : DB) :
    clearQuestionsForTopic m t s = deleteExistingQuestions m t s := rfl

theorem clearPhase_attempts (m t : String) (s : DB) :
    (clearPhase m t s).attempts = s.attempts := rfl

theorem clearPhase_nextId (m t : String) (s : DB) :
    (clearPhase m t s).nextId = s.nextId := rfl

theorem insertCandidate_attempts (m t : String) (c : Candidate) (s : DB) :
    (insertCandidate m t c s).attempts = s.attempts := rfl

theorem mkOptions_question_id (qid : Nat) (ci : Option Int) :
    ∀ (os : List String) (oid j : Nat), ∀ o ∈ mkOptions qid ci oid j os,
      o.question_id = qid := by
  intro os
  induction os with
  | nil => intro oid j o ho; simp [mkOptions] at ho
  | cons x xs ih =>
    intro oid j o ho
    simp only [mkOptions, List.mem_cons] at ho
    rcases ho with h | h
    · rw [h]
    · exact ih (oid + 1) (j + 1) o h

theorem mkOptions_content (qid : Nat) (ci : Option Int) :
    ∀ (os : List String) (oid j : Nat),
      (mkOptions qid ci oid j os).map (fun o => (o.text, o.is_correct)) =
        optionContent ci j os := by
  intro os
  induction os with
  | nil => intro oid j; simp [mkOptions, optionContent]
  | cons x xs ih =>
    intro oid j
    simp [mkOptions, optionContent, ih (oid + 1) (j + 1)]

theorem mkOptions_length (qid : Nat) (ci : Option Int) :
    ∀ (os : List String) (oid j : Nat), (mkOptions qid ci oid j os).length = os.length := by
  intro os
  induction os with
  | nil => intro oid j; simp [mkOptions]
  | cons x xs ih => intro oid j; simp [mkOptions, ih]

/-- Fresh option rows do not show up under any previously existing question id. -/
theorem optionsOf_insert_old (m t : String) (c : Candidate) (s : DB) (qid : Nat)
    (h : qid < s.nextId) :
    optionsOf (insertCandidate m t c s) qid = optionsOf s qid := by
  unfold optionsOf insertCandidate
  simp only [List.filter_append]
  have hnil : (mkOptions s.nextId c.correctIndex (s.nextId + 1) 0 (c.options.getD [])).filter
      (fun o => o.question_id == qid) = [] := by
    rw [List.filter_eq_nil_iff]
    intro o ho
    have := mkOptions_question_id s.nextId c.correctIndex (c.options.getD []) (s.nextId + 1) 0 o ho
    simp only [this, beq_iff_eq]
    omega
  rw [hnil, List.append_nil]

/-- The stored content of a pre-existing question is unchanged by an insert. -/
theorem questionContent_insert_old (m t : String) (c : Candidate) (s : DB) (q : Question)
    (hwf : wellFormed s) (hq : q ∈ s.questions) :
    questionContent (insertCandidate m t c s) q = questionContent s q := by
  unfold questionContent
  rw [optionsOf_insert_old _ _ _ _ _ (hwf.1 q hq)]

theorem insertCandidate_wf (m t : String) (c : Candidate) (s : DB)
    (hwf : wellFormed s) : wellFormed (insertCandidate m t c s) := by
  obtain ⟨h1, h2, h3⟩ := hwf
  simp only [insertCandidate, wellFormed]
  refine ⟨?_, ?_, ?_⟩
  · intro q hq
    simp only [List.mem_append, List.mem_singleton] at hq
    rcases hq with h | h
    · have := h1 q h; omega
    · rw [h]; simp; omega
  · intro o ho
    simp only [List.mem_append] at ho
    rcases ho with h | h
    · have := h2 o h; omega
    · have := mkOptions_question_id s.nextId c.correctIndex
        (c.options.getD []) (s.nextId + 1) 0 o h
      simp only [this]; omega
  · simp only [List.map_append, List.map_cons, List.map_nil]
    rw [List.nodup_append]
    refine ⟨h3, List.nodup_singleton _, ?_⟩
    intro x hx hx'
    simp only [List.mem_singleton] at hx'
    simp only [List.mem_map] at hx
    obtain ⟨q, hq, hqid⟩ := hx
    have := h1 q hq
    omega

/-- Inserting a candidate into partition (m, t) appends exactly its expected
content to that partition. -/
theorem insert_partitionContent_self (m t : String) (c : Candidate) (s : DB)
    (hwf : wellFormed s) :
    partitionContent m t (insertCandidate m t c s) =
      partitionContent m t s ++ [candContent c] := by
  unfold partitionContent partitionQuestions
  have hq : (insertCandidate m t c s).questions = s.questions ++
      [{ id := s.nextId, module_id := m, topic := t, text := c.question,
         difficulty := 2, slide_reference := slideRef c.slideLink, explanation := none }] := rfl
  rw [hq, List.filter_append, List.map_append]
  congr 1
  · apply List.map_congr_left
    intro q hq'
    have hmem : q ∈ s.questions := (List.mem_filter.mp hq').1
    exact questionContent_insert_old m t c s q hwf hmem
  · have hP : isPartitionQ m t
        { id := s.nextId, module_id := m, topic := t, text := c.question,
          difficulty := 2, slide_reference := slideRef c.slideLink,
          explanation := none } = true := by
      simp [isPartitionQ]
    simp only [List.filter_cons, hP, if_true, List.filter_nil, List.map_cons, List.map_nil]
    congr 1
    unfold questionContent candContent
    simp only [Prod.mk.injEq, true_and]
    have hopts : optionsOf (insertCandidate m t c s) s.nextId =
        mkOptions s.nextId c.correctIndex (s.nextId + 1) 0 (c.options.getD []) := by
      unfold optionsOf insertCandidate
      rw [List.filter_append]
      have h1 : s.options.filter (fun o => o.question_id == s.nextId) = [] := by
        rw [List.filter_eq_nil_iff]
        intro o ho
        have := hwf.2.1 o ho
        simp only [beq_iff_eq]
        omega
      have h2 : (mkOptions s.nextId c.correctIndex (s.nextId + 1) 0
          (c.options.getD [])).filter (fun o => o.question_id == s.nextId) =
          mkOptions s.nextId c.correctIndex (s.nextId + 1) 0 (c.options.getD []) := by
        rw [List.filter_eq_self]
        intro o ho
        have := mkOptions_question_id s.nextId c.correctIndex
          (c.options.getD []) (s.nextId + 1) 0 o ho
        simp [this]
      rw [h1, h2, List.nil_append]
    rw [hopts, mkOptions_content]

/-- Inserting into partition (m, t) leaves any other partition's content
unchanged. -/
theorem insert_partitionContent_other (m m' t t' : String) (c : Candidate) (s : DB)
    (hwf : wellFormed s) (hne : ¬(m' = m ∧ t' = t)) :
    partitionContent m' t' (insertCandidate m t c s) = partitionContent m' t' s := by
  unfold partitionContent partitionQuestions
  have hq : (insertCandidate m t c s).questions = s.questions ++
      [{ id := s.nextId, module_id := m, topic := t, text := c.question,
         difficulty := 2, slide_reference := slideRef c.slideLink, explanation := none }] := rfl
  rw [hq, List.filter_append]
  have hP : isPartitionQ m' t'
      { id := s.nextId, module_id := m, topic := t, text := c.question,
        difficulty := 2, slide_reference := slideRef c.slideLink,
        explanation := none } = false := by
    simp only [isPartitionQ]
    by_contra hb
    have hb' : (m == m' && t == t') = true := by
      cases hx : (m == m' && t == t')
      · exact absurd hx hb
      · rfl
    simp only [Bool.and_eq_true, beq_iff_eq] at hb'
    exact hne ⟨hb'.1.symm, hb'.2.symm⟩
  have hnil : List.filter (isPartitionQ m' t')
      [{ id := s.nextId, module_id := m, topic := t, text := c.question,
         difficulty := 2, slide_reference := slideRef c.slideLink,
         explanation := none }] = [] := by
    simp [hP]
  rw [hnil, List.append_nil]
  apply List.map_congr_left
  intro q hq'
  have hmem : q ∈ s.questions := (List.mem_filter.mp hq').1
  exact questionContent_insert_old m t c s q hwf hmem

/-- The clearing transaction preserves well-formedness. -/
theorem clearPhase_wf (m t : String) (s : DB) (hwf : wellFormed s) :
    wellFormed (clearPhase m t s) := by
  obtain ⟨h1, h2, h3⟩ := hwf
  refine ⟨?_, ?_, ?_⟩
  · intro q hq
    exact h1 q (List.mem_of_mem_filter hq)
  · intro o ho
    exact h2 o (List.mem_of_mem_filter ho)
  · exact List.Nodup.sublist (List.Sublist.map _ (List.filter_sublist _)) h3

/-- After the clearing transaction the partition is empty. -/
theorem clearPhase_content_self (m t : String) (s : DB) :
    partitionContent m t (clearPhase m t s) = [] := by
  unfold partitionContent partitionQuestions clearPhase
  simp only
  rw [List.filter_filter]
  have : s.questions.filter (fun q => isPartitionQ m t q && !(isPartitionQ m t q)) = [] := by
    rw [List.filter_eq_nil_iff]
    intro q _
    cases h : isPartitionQ m t q <;> simp [h]
  rw [this, List.map_nil]

/-- The clearing transaction of partition (m, t) leaves any other
partition's content unchanged. -/
theorem clearPhase_questions (m t : String) (s : DB) :
    (clearPhase m t s).questions = s.questions.filter (fun q => !(isPartitionQ m t q)) := rfl

theorem clearPhase_options (m t : String) (s : DB) :
    (clearPhase m t s).options = s.options.filter (fun o =>
      !(((s.questions.filter (isPartitionQ m t)).map (fun q => q.id)).contains
        o.question_id)) := rfl

theorem clearPhase_content_other (m m' t t' : String) (s : DB)
    (hwf : wellFormed s) (hne : ¬(m' = m ∧ t' = t)) :
    partitionContent m' t' (clearPhase m t s) = partitionContent m' t' s := by
  have hinj := List.inj_on_of_nodup_map hwf.2.2
  have hkey : ∀ q ∈ s.questions, isPartitionQ m' t' q = true → isPartitionQ m t q = false := by
    intro q _ hP'
    by_contra hb
    have hb' : isPartitionQ m t q = true := by
      cases hx : isPartitionQ m t q
      · exact absurd hx hb
      · rfl
    simp only [isPartitionQ, Bool.and_eq_true, beq_iff_eq] at hP' hb'
    exact hne ⟨hP'.1.symm.trans hb'.1, hP'.2.symm.trans hb'.2⟩
  unfold partitionContent partitionQuestions
  rw [clearPhase_questions, List.filter_filter]
  have hfil : s.questions.filter (fun q => isPartitionQ m' t' q && !(isPartitionQ m t q)) =
      s.questions.filter (isPartitionQ m' t') := by
    apply List.filter_congr
    intro q hmem
    cases h' : isPartitionQ m' t' q
    · simp
    · simp [hkey q hmem h']
  rw [hfil]
  apply List.map_congr_left
  intro q hq'
  obtain ⟨hmem, hP'⟩ := List.mem_filter.mp hq'
  unfold questionContent
  simp only [Prod.mk.injEq, true_and]
  have hnotmem : q.id ∉ (s.questions.filter (isPartitionQ m t)).map (fun q => q.id) := by
    intro hmm
    rw [List.mem_map] at hmm
    obtain ⟨qd, hqd, hid⟩ := hmm
    obtain ⟨hqdmem, hqdP⟩ := List.mem_filter.mp hqd
    have heq : qd = q := hinj hqdmem hmem hid
    rw [heq] at hqdP
    rw [hkey q hmem hP'] at hqdP
    exact Bool.false_ne_true hqdP
  have hopt : optionsOf (clearPhase m t s) q.id = optionsOf s q.id := by
    unfold optionsOf
    rw [clearPhase_options, List.filter_filter]
    apply List.filter_congr
    intro o _
    cases ho : (o.question_id == q.id)
    · simp
    · have hoq : o.question_id = q.id := by
        simpa [beq_iff_eq] using ho
      simp [hoq, hnotmem]
  rw [hopt]

/-- Folds distribute over concatenation of batches. -/
theorem foldl_over_flatten {β γ : Type} (f : γ → β → γ) :
    ∀ (L : List (List β)) (a : γ),
      L.flatten.foldl f a = L.foldl (fun acc l => l.foldl f acc) a := by
  intro L
  induction L with
  | nil => intro a; rfl
  | cons l ls ih =>
    intro a
    rw [List.flatten_cons, List.foldl_append, List.foldl_cons, ih]

/-- The batches tile the original list. -/
theorem chunksAux_flatten {α : Type} (bs : Nat) :
    ∀ (fuel : Nat) (xs : List α), (chunksAux bs fuel xs).flatten = xs := by
  intro fuel
  induction fuel with
  | zero =>
    intro xs
    cases xs with
    | nil => rfl
    | cons a l => simp [chunksAux]
  | succ f ih =>
    intro xs
    cases xs with
    | nil => rfl
    | cons a l =>
      show (((a :: l).take bs :: chunksAux bs f ((a :: l).drop bs))).flatten = a :: l
      rw [List.flatten_cons, ih, List.take_append_drop]

theorem chunks_flatten {α : Type} (bs : Nat) (xs : List α) :
    (chunks bs xs).flatten = xs := chunksAux_flatten bs xs.length xs

/-- Batch size is invisible to the fold: the batched import equals the plain
record-by-record fold. -/
theorem importQuestionsBatched_eq (m t : String) (bs : Nat) (cands : List Candidate)
    (s : DB) : importQuestionsBatched m t bs cands s = importOn m t cands (s, 0) := by
  unfold importQuestionsBatched importOn
  have h := foldl_over_flatten (processItem m t) (chunks bs cands) (s, 0)
  rw [chunks_flatten] at h
  exact h.symm

/-- Main fold invariant: starting from a well-formed store, the fold keeps
the store well formed, never touches attempts, counts exactly the valid
records, and appends exactly the valid records' contents to the partition. -/
theorem importOn_spec (m t : String) :
    ∀ (cands : List Candidate) (s : DB) (n : Nat), wellFormed s →
      wellFormed (importOn m t cands (s, n)).1 ∧
      (importOn m t cands (s, n)).1.attempts = s.attempts ∧
      (importOn m t cands (s, n)).2 = n + (cands.filter validCandidate).length ∧
      partitionContent m t (importOn m t cands (s, n)).1 =
        partitionContent m t s ++ (cands.filter validCandidate).map candContent := by
  intro cands
  induction cands with
  | nil =>
    intro s n hwf
    exact ⟨hwf, rfl, rfl, by simp [importOn]⟩
  | cons c cs ih =>
    intro s n hwf
    by_cases hv : validCandidate c
    · have hstep : importOn m t (c :: cs) (s, n) =
          importOn m t cs (insertCandidate m t c s, n + 1) := by
        unfold importOn
        rw [List.foldl_cons]
        unfold processItem
        rw [if_pos hv]
      obtain ⟨w1, w2, w3, w4⟩ := ih (insertCandidate m t c s) (n + 1)
        (insertCandidate_wf m t c s hwf)
      rw [hstep]
      refine ⟨w1, ?_, ?_, ?_⟩
      · rw [w2, insertCandidate_attempts]
      · rw [w3, List.filter_cons_of_pos hv]
        simp only [List.length_cons]
        omega
      · rw [w4, insert_partitionContent_self m t c s hwf,
          List.filter_cons_of_pos hv, List.map_cons]
        simp
    · have hstep : importOn m t (c :: cs) (s, n) = importOn m t cs (s, n) := by
        unfold importOn
        rw [List.foldl_cons]
        unfold processItem
        rw [if_neg hv]
      obtain ⟨w1, w2, w3, w4⟩ := ih s n hwf
      rw [hstep]
      refine ⟨w1, w2, ?_, ?_⟩
      · rw [w3, List.filter_cons_of_neg hv]
      · rw [w4, List.filter_cons_of_neg hv]

/-- Frame: the fold into partition (m, t) leaves every other partition's
content unchanged. -/
theorem importOn_frame (m m' t t' : String) (hne : ¬(m' = m ∧ t' = t)) :
    ∀ (cands : List Candidate) (s : DB) (n : Nat), wellFormed s →
      partitionContent m' t' (importOn m t cands (s, n)).1 = partitionContent m' t' s := by
  intro cands
  induction cands with
  | nil => intro s n _; rfl
  | cons c cs ih =>
    intro s n hwf
    by_cases hv : validCandidate c
    · have hstep : importOn m t (c :: cs) (s, n) =
          importOn m t cs (insertCandidate m t c s, n + 1) := by
        unfold importOn
        rw [List.foldl_cons]
        unfold processItem
        rw [if_pos hv]
      rw [hstep, ih (insertCandidate m t c s) (n + 1) (insertCandidate_wf m t c s hwf),
        insert_partitionContent_other m m' t t' c s hwf hne]
    · have hstep : importOn m t (c :: cs) (s, n) = importOn m t cs (s, n) := by
        unfold importOn
        rw [List.foldl_cons]
        unfold processItem
        rw [if_neg hv]
      rw [hstep, ih s n hwf]

/-- The fold never changes the attempts table (no well-formedness needed). -/
theorem importOn_attempts (m t : String) :
    ∀ (cands : List Candidate) (acc : DB × Nat),
      (importOn m t cands acc).1.attempts = acc.1.attempts := by
  intro cands
  induction cands with
  | nil => intro acc; rfl
  | cons c cs ih =>
    intro acc
    unfold importOn
    rw [List.foldl_cons]
    have := ih (processItem m t acc c)
    unfold importOn at this
    rw [this]
    unfold processItem
    by_cases hv : validCandidate c
    · rw [if_pos hv, insertCandidate_attempts]
    · rw [if_neg hv]

/-- Summary of one reseed of partition (m, t): the store stays well formed,
attempts are untouched, the imported count is the number of records passing
validation, and the partition's content afterwards is exactly the valid
records' contents. -/
theorem reseedPartition_spec (m t : String) (cands : List Candidate) (s : DB)
    (hwf : wellFormed s) :
    wellFormed (reseedPartition m t cands s).1 ∧
    (reseedPartition m t cands s).1.attempts = s.attempts ∧
    (reseedPartition m t cands s).2 = (cands.filter validCandidate).length ∧
    partitionContent m t (reseedPartition m t cands s).1 =
      (cands.filter validCandidate).map candContent := by
  unfold reseedPartition importQuestions
  rw [deleteExistingQuestions_eq, importQuestionsBatched_eq]
  have hwf1 : wellFormed (clearPhase m t s) := clearPhase_wf m t s hwf
  obtain ⟨w1, w2, w3, w4⟩ := importOn_spec m t cands (clearPhase m t s) 0 hwf1
  refine ⟨w1, ?_, ?_, ?_⟩
  · rw [w2, clearPhase_attempts]
  · rw [w3, Nat.zero_add]
  · rw [w4, clearPhase_content_self, List.nil_append]

/-- Frame of a reseed: any other partition's content is unchanged. -/
theorem reseedPartition_frame (m m' t t' : String) (cands : List Candidate) (s : DB)
    (hwf : wellFormed s) (hne : ¬(m' = m ∧ t' = t)) :
    partitionContent m' t' (reseedPartition m t cands s).1 = partitionContent m' t' s := by
  unfold reseedPartition importQuestions
  rw [deleteExistingQuestions_eq, importQuestionsBatched_eq]
  rw [importOn_frame m m' t t' hne cands (clearPhase m t s) 0 (clearPhase_wf m t s hwf)]
  exact clearPhase_content_other m m' t t' s hwf hne

/-- Below the correct index every generated flag is false, making the
remaining list's flags all false once the index has been passed. -/
theorem optionContent_past_index (ci : Int) :
    ∀ (os : List String) (j : Nat), (ci < (j : Int) ∨ (j : Int) + os.length ≤ ci) →
      (optionContent (some ci) j os).filter (fun p => p.2) = [] := by
  intro os
  induction os with
  | nil => intro j _; rfl
  | cons x xs ih =>
    intro j hj
    have hne : ci ≠ (j : Int) := by
      intro he
      subst he
      simp only [List.length_cons] at hj
      rcases hj with h | h
      · omega
      · push_cast at h; omega
    have hflag : (some ci == some (j : Int)) = false := by
      rw [beq_eq_false_iff_ne]
      intro he
      exact hne (Option.some_injective _ he)
    unfold optionContent
    rw [List.filter_cons]
    simp only [hflag, Bool.false_eq_true, if_false]
    apply ih
    simp only [List.length_cons] at hj
    rcases hj with h | h
    · left; push_cast; omega
    · right; push_cast at h ⊢; omega

/-- Exactly one generated flag is true when the correct index lies in
range. -/
theorem optionContent_one_correct (ci : Int) :
    ∀ (os : List String) (j : Nat), (j : Int) ≤ ci → ci < (j : Int) + os.length →
      ((optionContent (some ci) j os).filter (fun p => p.2)).length = 1 := by
  intro os
  induction os with
  | nil =>
    intro j h1 h2
    simp only [List.length_nil] at h2
    omega
  | cons x xs ih =>
    intro j h1 h2
    by_cases he : ci = (j : Int)
    · have hflag : (some ci == some (j : Int)) = true := by
        rw [he]; exact beq_self_eq_true _
      unfold optionContent
      rw [List.filter_cons]
      simp only [hflag, if_true]
      rw [List.length_cons]
      have : (optionContent (some ci) (j + 1) xs).filter (fun p => p.2) = [] := by
        apply optionContent_past_index
        left
        rw [he]
        push_cast
        omega
      rw [this]
      rfl
    · have hflag : (some ci == some (j : Int)) = false := by
        rw [beq_eq_false_iff_ne]
        intro hcon
        exact he (by injection hcon)
      unfold optionContent
      rw [List.filter_cons]
      simp only [hflag, Bool.false_eq_true, if_false]
      apply ih (j + 1)
      · have hne : (j : Int) ≠ ci := fun hc => he hc.symm
        push_cast
        omega
      · simp only [List.length_cons] at h2
        push_cast at h2 ⊢
        omega

/-- When the correct index is at or beyond the end of the list, every
generated flag is false and the content is the texts paired with false. -/
theorem optionContent_out_of_range (ci : Int) :
    ∀ (os : List String) (j : Nat), (j : Int) + os.length ≤ ci →
      optionContent (some ci) j os = os.map (fun txt => (txt, false)) := by
  intro os
  induction os with
  | nil => intro j _; rfl
  | cons x xs ih =>
    intro j hj
    simp only [List.length_cons] at hj
    have hflag : (some ci == some (j : Int)) = false := by
      rw [beq_eq_false_iff_ne]
      intro hcon
      have : ci = (j : Int) := by injection hcon
      rw [this] at hj
      push_cast at hj
      omega
    unfold optionContent
    rw [List.map_cons, hflag]
    congr 1
    apply ih
    push_cast at hj ⊢
    omega

/-- Negation of the cleanup script's invalidity test, as a Bool identity. -/
theorem invalidQ_neg (vm vt : List String) (q : Question) :
    (!(invalidQ vm vt q)) =
      (vm.contains q.module_id && vt.contains q.topic && !(containsSample q.text)) := by
  unfold invalidQ
  cases vm.contains q.module_id <;> cases vt.contains q.topic <;>
    cases containsSample q.text <;> rfl

/-- Characterisation of the questions surviving a cleanup run: exactly those
in a valid module and a valid topic whose text does not contain "sample"
(requires distinct question ids, as the script deletes by id). -/
theorem cleanupDatabase_questions (vm vt : List String) (s : DB)
    (hnd : (s.questions.map (fun q => q.id)).Nodup) :
    (cleanupDatabase vm vt s).questions =
      s.questions.filter (fun q =>
        vm.contains q.module_id && vt.contains q.topic && !(containsSample q.text)) := by
  have hinj := List.inj_on_of_nodup_map hnd
  unfold cleanupDatabase
  by_cases h : (s.questions.filter (invalidQ vm vt)).isEmpty
  · rw [if_pos h]
    rw [List.isEmpty_iff] at h
    symm
    rw [List.filter_eq_self]
    intro q hq
    rw [← invalidQ_neg]
    have : invalidQ vm vt q = false := by
      by_contra hb
      have hb' : invalidQ vm vt q = true := by
        cases hx : invalidQ vm vt q
        · exact absurd hx hb
        · rfl
      have : q ∈ s.questions.filter (invalidQ vm vt) := List.mem_filter.mpr ⟨hq, hb'⟩
      rw [h] at this
      exact (List.not_mem_nil q) this
    rw [this]
    rfl
  · rw [if_neg h]
    simp only
    apply List.filter_congr
    intro q hq
    rw [← invalidQ_neg]
    have hmemiff : ((s.questions.filter (invalidQ vm vt)).map (fun q => q.id)).contains
        q.id = true ↔ invalidQ vm vt q = true := by
      constructor
      · intro hc
        have hmm := List.elem_iff.mp hc
        rw [List.mem_map] at hmm
        obtain ⟨qd, hqd, hid⟩ := hmm
        obtain ⟨hqdmem, hqdinv⟩ := List.mem_filter.mp hqd
        have heq : qd = q := hinj hqdmem hq hid
        rw [← heq]
        exact hqdinv
      · intro hinv
        apply List.elem_iff.mpr
        rw [List.mem_map]
        exact ⟨q, List.mem_filter.mpr ⟨hq, hinv⟩, rfl⟩
    cases hx : invalidQ vm vt q
    · have hcf : ((s.questions.filter (invalidQ vm vt)).map (fun q => q.id)).contains
          q.id = false := by
        cases hcc : ((s.questions.filter (invalidQ vm vt)).map (fun q => q.id)).contains q.id
        · rfl
        · have := hmemiff.mp hcc
          rw [this] at hx
          simp at hx
      rw [hcf]
    · rw [hmemiff.mpr hx]

/-- A batch transaction that succeeds under failure injection processes the
same records as one without failures. -/
theorem runBatch_no_fail (m t : String) (F : List Nat) :
    ∀ (batch : List (Nat × Candidate)) (s s2 : DB),
      runBatch m t F s batch = some s2 → runBatch m t [] s batch = some s2 := by
  intro batch
  induction batch with
  | nil => intro s s2 h; exact h
  | cons ic rest ih =>
    intro s s2 h
    unfold runBatch at h ⊢
    have hnil : (([] : List Nat)).contains ic.1 = false := rfl
    cases hv : validCandidate ic.2
    · simp only [hv, Bool.not_false, if_true] at h ⊢
      exact ih s s2 h
    · simp only [hv, Bool.not_true, Bool.false_eq_true, if_false, hnil] at h ⊢
      cases hf : F.contains ic.1
      · simp only [hf, Bool.false_eq_true, if_false] at h
        exact ih _ _ h
      · simp only [hf, if_true] at h
        exact absurd h (by simp)

/-- Without failure injection every batch transaction commits. -/
theorem runBatch_none_free (m t : String) :
    ∀ (batch : List (Nat × Candidate)) (s : DB),
      ∃ s2, runBatch m t [] s batch = some s2 := by
  intro batch
  induction batch with
  | nil => intro s; exact ⟨s, rfl⟩
  | cons ic rest ih =>
    intro s
    unfold runBatch
    have hnil : (([] : List Nat)).contains ic.1 = false := rfl
    cases hv : validCandidate ic.2
    · simp only [hv, Bool.not_false, if_true]
      exact ih s
    · simp only [hv, Bool.not_true, Bool.false_eq_true, if_false, hnil]
      exact ih (insertCandidate m t ic.2 s)

/-- Under any failure injection the committed state is the failure-free run
of some prefix of the batches: batch-level atomicity. -/
theorem runBatches_take (m t : String) (F : List Nat) :
    ∀ (batches : List (List (Nat × Candidate))) (s : DB),
      ∃ k, runBatches m t F s batches = runBatches m t [] s (batches.take k) := by
  intro batches
  induction batches with
  | nil => intro s; exact ⟨0, rfl⟩
  | cons b bs ih =>
    intro s
    unfold runBatches
    cases h : runBatch m t F s b with
    | none => exact ⟨0, rfl⟩
    | some s2 =>
      obtain ⟨k, hk⟩ := ih s2
      refine ⟨k + 1, ?_⟩
      rw [List.take_succ_cons]
      show runBatches m t F s2 bs =
        (match runBatch m t [] s b with
         | none => s
         | some s3 => runBatches m t [] s3 (bs.take k))
      rw [runBatch_no_fail m t F b s s2 h]
      exact hk

/-! Difficulty-invariant lemmas. -/

theorem diffOk_refl (s : DB) : diffOk s s := fun _ hq => Or.inl hq

theorem diffOk_trans {s1 s2 s3 : DB} (h12 : diffOk s1 s2) (h23 : diffOk s2 s3) :
    diffOk s1 s3 := by
  intro q hq
  rcases h23 q hq with h | h
  · exact h12 q h
  · exact Or.inr h

theorem diffOk_insert (m t : String) (c : Candidate) (s : DB) :
    diffOk s (insertCandidate m t c s) := by
  intro q hq
  have : q ∈ s.questions ++
      [{ id := s.nextId, module_id := m, topic := t, text := c.question,
         difficulty := 2, slide_reference := slideRef c.slideLink,
         explanation := none }] := hq
  rw [List.mem_append, List.mem_singleton] at this
  rcases this with h | h
  · exact Or.inl h
  · right; rw [h]

theorem diffOk_serverInsert (m : String) (c : Candidate) (s : DB) :
    diffOk s (serverInsert m c s) := by
  intro q hq
  have : q ∈ s.questions ++
      [{ id := s.nextId, module_id := m, topic := derivedTopic c.slideLink,
         text := c.question, difficulty := 2,
         slide_reference := some (match c.slideLink with
           | some v => if v == "" then "" else v
           | none => ""),
         explanation := some "" }] := hq
  rw [List.mem_append, List.mem_singleton] at this
  rcases this with h | h
  · exact Or.inl h
  · right; rw [h]

theorem diffOk_clearPhase (m t : String) (s : DB) : diffOk s (clearPhase m t s) :=
  fun _ hq => Or.inl (List.mem_of_mem_filter hq)

theorem diffOk_importOn (m t : String) :
    ∀ (cands : List Candidate) (acc : DB × Nat), diffOk acc.1 (importOn m t cands acc).1 := by
  intro cands
  induction cands with
  | nil => intro acc; exact diffOk_refl _
  | cons c cs ih =>
    intro acc
    have h1 : diffOk acc.1 (processItem m t acc c).1 := by
      unfold processItem
      by_cases hv : validCandidate c
      · rw [if_pos hv]; exact diffOk_insert m t c acc.1
      · rw [if_neg hv]; exact diffOk_refl _
    have h2 := ih (processItem m t acc c)
    have hstep : importOn m t (c :: cs) acc = importOn m t cs (processItem m t acc c) := rfl
    rw [hstep]
    exact diffOk_trans h1 h2

theorem diffOk_serverImport (m : String) :
    ∀ (cands : List Candidate) (s : DB), diffOk s (serverImportQuestions m cands s) := by
  intro cands
  induction cands with
  | nil => intro s; exact diffOk_refl _
  | cons c cs ih =>
    intro s
    have hstep : serverImportQuestions m (c :: cs) s =
        serverImportQuestions m cs (serverInsert m c s) := rfl
    rw [hstep]
    exact diffOk_trans (diffOk_serverInsert m c s) (ih (serverInsert m c s))

theorem diffOk_runBatch (m t : String) (F : List Nat) :
    ∀ (batch : List (Nat × Candidate)) (s s2 : DB),
      runBatch m t F s batch = some s2 → diffOk s s2 := by
  intro batch
  induction batch with
  | nil =>
    intro s s2 h
    have heq : s = s2 := by
      unfold runBatch at h
      simpa using h
    rw [heq]
    exact diffOk_refl _
  | cons ic rest ih =>
    intro s s2 h
    unfold runBatch at h
    cases hv : validCandidate ic.2
    · simp only [hv, Bool.not_false, if_true] at h
      exact ih _ _ h
    · simp only [hv, Bool.not_true, Bool.false_eq_true, if_false] at h
      cases hf : F.contains ic.1
      · simp only [hf, Bool.false_eq_true, if_false] at h
        exact diffOk_trans (diffOk_insert m t ic.2 s) (ih _ _ h)
      · simp only [hf, if_true] at h
        exact absurd h (by simp)

theorem diffOk_runBatches (m t : String) (F : List Nat) :
    ∀ (batches : List (List (Nat × Candidate))) (s : DB),
      diffOk s (runBatches m t F s batches) := by
  intro batches
  induction batches with
  | nil => intro s; exact diffOk_refl _
  | cons b bs ih =>
    intro s
    unfold runBatches
    cases h : runBatch m t F s b with
    | none => exact diffOk_refl _
    | some s2 => exact diffOk_trans (diffOk_runBatch m t F b s s2 h) (ih s2)

/-! Claim theorems. -/

/-- C1: for every list of valid candidate records (non-empty question text,
options array, correctIndex a valid position), after
`reseedPartition(m, t, candidates)` the partition contains exactly one
Question per candidate with one Option per element of its options array in
the original order, and exactly one Option flagged correct, namely the one
at position correctIndex. -/
theorem claim_C1_reseed_valid_content (m t : String) (cands : List Candidate) (s : DB)
    (hwf : wellFormed s)
    (hv : ∀ c ∈ cands, validCandidate c = true ∧
      0 ≤ c.correctIndex.getD (-1) ∧
      c.correctIndex.getD (-1) < ((c.options.getD []).length : Int)) :
    partitionContent m t (reseedPartition m t cands s).1 = cands.map candContent ∧
    (reseedPartition m t cands s).2 = cands.length ∧
    ∀ entry ∈ partitionContent m t (reseedPartition m t cands s).1,
      (entry.2.2.filter (fun p => p.2)).length = 1 := by
  have hfilter : cands.filter validCandidate = cands :=
    List.filter_eq_self.mpr (fun c hc => (hv c hc).1)
  obtain ⟨w1, w2, w3, w4⟩ := reseedPartition_spec m t cands s hwf
  refine ⟨by rw [w4, hfilter], by rw [w3, hfilter], ?_⟩
  intro entry hentry
  rw [w4, hfilter, List.mem_map] at hentry
  obtain ⟨c, hc, hce⟩ := hentry
  obtain ⟨hvc, h0, hlen⟩ := hv c hc
  have hsome : c.correctIndex.isSome := by
    unfold validCandidate at hvc
    simp only [Bool.and_eq_true] at hvc
    exact hvc.2
  obtain ⟨ci, hci⟩ := Option.isSome_iff_exists.mp hsome
  rw [hci] at h0 hlen
  simp only [Option.getD_some] at h0 hlen
  subst hce
  unfold candContent
  simp only
  rw [hci]
  exact optionContent_one_correct ci (c.options.getD []) 0 (by exact_mod_cast h0)
    (by push_cast; omega)

/-- Witness for C1: the specification's FOCS2 example — three valid records,
the first with options A, B, C and correct index 1, yields three Questions
and nine Options, the Option "B" of the first question being the only
correct one among its options. -/
theorem claim_C1_witness :
    (wellFormed dbEmpty ∧
      (∀ c ∈ [candA, candB, candC], validCandidate c = true ∧
        0 ≤ c.correctIndex.getD (-1) ∧
        c.correctIndex.getD (-1) < ((c.options.getD []).length : Int)) ∧
      (reseedPartition "focs" "FOCS2" [candA, candB, candC] dbEmpty).1.questions.length = 3 ∧
      (reseedPartition "focs" "FOCS2" [candA, candB, candC] dbEmpty).1.options.length = 9 ∧
      candContent candA = ("Q1", 2, [("A", false), ("B", true), ("C", false)])) ∧
    (partitionContent "focs" "FOCS2"
        (reseedPartition "focs" "FOCS2" [candA, candB, candC] dbEmpty).1 =
      [candA, candB, candC].map candContent ∧
    (reseedPartition "focs" "FOCS2" [candA, candB, candC] dbEmpty).2 =
      [candA, candB, candC].length ∧
    ∀ entry ∈ partitionContent "focs" "FOCS2"
        (reseedPartition "focs" "FOCS2" [candA, candB, candC] dbEmpty).1,
      (entry.2.2.filter (fun p => p.2)).length = 1) :=
  ⟨by decide,
   claim_C1_reseed_valid_content "focs" "FOCS2" [candA, candB, candC] dbEmpty
     (by decide) (by decide)⟩

/-- C2 counterexample: the claim asserts that after a reseed no Attempt row
references a Question or Option id that no longer exists; reseeding a
partition with an existing attempt leaves the attempt dangling, because the
reseed's destructive phase never touches the attempts table. -/
theorem claim_C2_counterexample :
    ¬ (∀ a ∈ (reseedPartition "focs" "FOCS2" [] dbDangling).1.attempts,
        (∃ q ∈ (reseedPartition "focs" "FOCS2" [] dbDangling).1.questions,
          q.id = a.questionId) ∧
        (∃ o ∈ (reseedPartition "focs" "FOCS2" [] dbDangling).1.options,
          o.id = a.selectedOptionId)) := by
  decide

/-- C2 amended: the destructive phase of a reseed deletes the partition's
Options and then its Questions, and never deletes Attempts; consequently an
Attempt referencing a reseeded Question or Option survives with a dangling
reference. -/
theorem claim_C2_amended_attempts_untouched (m t : String) (cands : List Candidate)
    (s : DB) :
    (clearQuestionsForTopic m t s).attempts = s.attempts ∧
    (clearQuestionsForTopic m t s).questions =
      s.questions.filter (fun q => !(isPartitionQ m t q)) ∧
    (clearQuestionsForTopic m t s).options = s.options.filter (fun o =>
      !(((s.questions.filter (isPartitionQ m t)).map (fun q => q.id)).contains
        o.question_id)) ∧
    (reseedPartition m t cands s).1.attempts = s.attempts := by
  have h1 : clearQuestionsForTopic m t s = clearPhase m t s := by
    rw [clearQuestionsForTopic_eq, deleteExistingQuestions_eq]
  refine ⟨by rw [h1]; rfl, by rw [h1, clearPhase_questions],
    by rw [h1, clearPhase_options], ?_⟩
  unfold reseedPartition importQuestions
  rw [importQuestionsBatched_eq, deleteExistingQuestions_eq]
  rw [importOn_attempts m t cands (clearPhase m t s, 0)]
  rfl

/-- C3 counterexample: the claim asserts cleanup removes no Question whose
partition key is in the valid set regardless of its text; a question of the
valid partition (focs, FOCS2) whose text contains "sample" is removed. -/
theorem claim_C3_counterexample :
    qSample.module_id ∈ ["focs"] ∧ qSample.topic ∈ ["FOCS2"] ∧
    qSample ∈ dbSample.questions ∧
    (cleanupDatabase ["focs"] ["FOCS2"] dbSample).questions = [] := by
  decide

/-- C3 amended: the cleanup keeps exactly the Questions whose module id is a
valid module, whose topic is a valid topic, and whose text does not contain
"sample"; in particular a question in a valid partition is removed whenever
its text contains "sample". -/
theorem claim_C3_amended_cleanup_filter (vm vt : List String) (s : DB)
    (hnd : (s.questions.map (fun q => q.id)).Nodup) :
    (cleanupDatabase vm vt s).questions =
      s.questions.filter (fun q =>
        vm.contains q.module_id && vt.contains q.topic && !(containsSample q.text)) :=
  cleanupDatabase_questions vm vt s hnd

/-- Witness for the amended C3 on a concrete store. -/
theorem claim_C3_witness :
    (dbSample.questions.map (fun q => q.id)).Nodup ∧
    (cleanupDatabase ["focs"] ["FOCS2"] dbSample).questions =
      dbSample.questions.filter (fun q =>
        (["focs"] : List String).contains q.module_id &&
        (["FOCS2"] : List String).contains q.topic && !(containsSample q.text)) :=
  ⟨by decide, claim_C3_amended_cleanup_filter ["focs"] ["FOCS2"] dbSample (by decide)⟩

/-- C4: reseeding a partition twice with the same candidates leaves the same
partition content (question texts, difficulties, option texts and
correctness flags, hence row counts) and returns the same imported count as
reseeding once; only generated ids may differ. -/
theorem claim_C4_idempotent (m t : String) (cands : List Candidate) (s : DB)
    (hwf : wellFormed s) :
    partitionContent m t
        (reseedPartition m t cands (reseedPartition m t cands s).1).1 =
      partitionContent m t (reseedPartition m t cands s).1 ∧
    (reseedPartition m t cands (reseedPartition m t cands s).1).2 =
      (reseedPartition m t cands s).2 := by
  obtain ⟨w1, _, w3, w4⟩ := reseedPartition_spec m t cands s hwf
  obtain ⟨_, _, w3', w4'⟩ := reseedPartition_spec m t cands (reseedPartition m t cands s).1 w1
  exact ⟨w4'.trans w4.symm, w3'.trans w3.symm⟩

/-- Witness for C4 on a concrete store with a pre-existing question. -/
theorem claim_C4_witness :
    wellFormed dbOld ∧
    (partitionContent "m" "T"
        (reseedPartition "m" "T" [candA, candEmptyOpts]
          (reseedPartition "m" "T" [candA, candEmptyOpts] dbOld).1).1 =
      partitionContent "m" "T" (reseedPartition "m" "T" [candA, candEmptyOpts] dbOld).1 ∧
    (reseedPartition "m" "T" [candA, candEmptyOpts]
        (reseedPartition "m" "T" [candA, candEmptyOpts] dbOld).1).2 =
      (reseedPartition "m" "T" [candA, candEmptyOpts] dbOld).2) :=
  ⟨by decide, claim_C4_idempotent "m" "T" [candA, candEmptyOpts] dbOld (by decide)⟩

/-- C5 counterexample: the claim asserts a failed reseed leaves the
partition in its pre-reseed state; with batch size 1 and the second record's
insert failing, import-module.js commits the delete and the first batch,
leaving a state that is neither the pre-reseed state nor the fully reseeded
one. -/
theorem claim_C5_counterexample :
    importModuleRun "m" "T" [candA, candB] 1 [1] dbOld ≠ dbOld ∧
    (importModuleRun "m" "T" [candA, candB] 1 [1] dbOld).questions.map
      (fun q => q.text) = ["Q1"] ∧
    dbOld.questions.map (fun q => q.text) = ["OLD"] ∧
    (importModuleRun "m" "T" [candA, candB] 1 [] dbOld).questions.map
      (fun q => q.text) = ["Q1", "Q2"] := by
  decide

/-- C5 amended: in import-module.js the delete phase is one committed
transaction and each batch of inserts is its own transaction; under any
failure injection the observable final state is the delete phase followed by
some prefix of the batches applied without failure — atomicity holds per
batch, not per partition. -/
theorem claim_C5_amended_batch_atomicity (m t : String) (cands : List Candidate)
    (bsz : Nat) (F : List Nat) (s : DB) :
    ∃ k, importModuleRun m t cands bsz F s =
      runBatches m (strToUpper t) [] (clearPhase m (strToUpper t) s)
        ((chunks bsz cands.enum).take k) := by
  unfold importModuleRun
  exact runBatches_take m (strToUpper t) F (chunks bsz cands.enum) (clearPhase m (strToUpper t) s)

/-- C6 counterexample: the claim asserts a record with an empty options
array is skipped, making the imported count one less than the list length;
such a record passes the code's validation and is inserted, so all three
records of the list are imported. -/
theorem claim_C6_counterexample :
    validCandidate candEmptyOpts = true ∧
    candEmptyOpts.options = some [] ∧
    (reseedPartition "m" "t" [candA, candEmptyOpts, candB] dbEmpty).2 = 3 ∧
    ((reseedPartition "m" "t" [candA, candEmptyOpts, candB] dbEmpty).2 = 2 → False) := by
  decide

/-- C6 amended: a record failing the code's validation (falsy question
text, non-array options field, or undefined correctIndex) is skipped without
aborting the batch: a list with one such record among otherwise valid
ones imports count(candidates) - 1 Questions; a record with empty options
array passes validation and is inserted (with zero Options). -/
theorem claim_C6_amended_skip_invalid (m t : String) (pre post : List Candidate)
    (bad : Candidate) (s : DB) (hwf : wellFormed s)
    (hbad : validCandidate bad = false)
    (hval : ∀ c ∈ pre ++ post, validCandidate c = true) :
    (reseedPartition m t (pre ++ bad :: post) s).2 = pre.length + post.length := by
  obtain ⟨_, _, w3, _⟩ := reseedPartition_spec m t (pre ++ bad :: post) s hwf
  rw [w3, List.filter_append, List.filter_cons_of_neg (by simp [hbad])]
  have hpre : pre.filter validCandidate = pre :=
    List.filter_eq_self.mpr (fun c hc => hval c (List.mem_append.mpr (Or.inl hc)))
  have hpost : post.filter validCandidate = post :=
    List.filter_eq_self.mpr (fun c hc => hval c (List.mem_append.mpr (Or.inr hc)))
  rw [hpre, hpost, List.length_append]

/-- Witness for the amended C6: a record with undefined correctIndex among
two valid records yields two imported Questions. -/
theorem claim_C6_witness :
    (wellFormed dbEmpty ∧ validCandidate candNoIdx = false ∧
      (∀ c ∈ [candA] ++ [candB], validCandidate c = true)) ∧
    (reseedPartition "m" "t" ([candA] ++ candNoIdx :: [candB]) dbEmpty).2 =
      [candA].length + [candB].length :=
  ⟨by decide,
   claim_C6_amended_skip_invalid "m" "t" [candA] [candB] candNoIdx dbEmpty
     (by decide) (by decide) (by decide)⟩

/-- C7: reseeding partition (m1, t1) leaves the content of any distinct
partition (m2, t2) — its questions, their texts, difficulties, option texts
and correctness flags — completely unchanged. -/
theorem claim_C7_partition_isolation (m1 t1 m2 t2 : String) (cands : List Candidate)
    (s : DB) (hwf : wellFormed s) (hne : ¬(m2 = m1 ∧ t2 = t1)) :
    partitionContent m2 t2 (reseedPartition m1 t1 cands s).1 =
      partitionContent m2 t2 s :=
  reseedPartition_frame m1 m2 t1 t2 cands s hwf hne

/-- Witness for C7 on a store holding a question of the other partition. -/
theorem claim_C7_witness :
    (wellFormed dbOther ∧ ¬("m2" = "m1" ∧ "t2" = "t1")) ∧
    partitionContent "m2" "t2" (reseedPartition "m1" "t1" [candA] dbOther).1 =
      partitionContent "m2" "t2" dbOther :=
  ⟨⟨by decide, by decide⟩,
   claim_C7_partition_isolation "m1" "t1" "m2" "t2" [candA] dbOther
     (by decide) (by decide)⟩

/-- C8: the batch size does not affect the final stored rows, their order,
or the returned imported count: for every batch size at least 1 the
batched import equals processing the records one by one. -/
theorem claim_C8_batch_size_irrelevant (m t : String) (bs : Nat) (cands : List Candidate)
    (s : DB) (_hbs : 1 ≤ bs) :
    importQuestionsBatched m t bs cands s = importOn m t cands (s, 0) :=
  importQuestionsBatched_eq m t bs cands s

/-- Witness for C8 at batch size 2 on a mixed candidate list. -/
theorem claim_C8_witness :
    1 ≤ 2 ∧
    importQuestionsBatched "m" "t" 2 [candA, candB, candNoIdx, candC] dbEmpty =
      importOn "m" "t" [candA, candB, candNoIdx, candC] (dbEmpty, 0) :=
  ⟨by decide,
   claim_C8_batch_size_irrelevant "m" "t" 2 [candA, candB, candNoIdx, candC] dbEmpty
     (by decide)⟩

/-- C9: a record with non-empty question text, an options array, and a
defined integer correctIndex at or beyond the length of the options array is
not skipped: it is inserted with one Option per array element and no Option
flagged correct. -/
theorem claim_C9_out_of_range_insert (m t : String) (c : Candidate) (os : List String)
    (ci : Int) (s : DB) (hwf : wellFormed s) (hq : ¬(c.question = ""))
    (ho : c.options = some os) (hc : c.correctIndex = some ci)
    (hge : (os.length : Int) ≤ ci) :
    validCandidate c = true ∧
    (reseedPartition m t [c] s).2 = 1 ∧
    partitionContent m t (reseedPartition m t [c] s).1 =
      [(c.question, 2, os.map (fun txt => (txt, false)))] := by
  have hvc : validCandidate c = true := by
    unfold validCandidate
    rw [ho, hc]
    simp [hq]
  obtain ⟨_, _, w3, w4⟩ := reseedPartition_spec m t [c] s hwf
  have hfl : ([c].filter validCandidate) = [c] := by
    rw [List.filter_eq_self]
    intro a ha
    rw [List.mem_singleton] at ha
    rw [ha]
    exact hvc
  refine ⟨hvc, by rw [w3, hfl]; rfl, ?_⟩
  rw [w4, hfl]
  simp only [List.map_cons, List.map_nil]
  unfold candContent
  rw [hc, ho]
  simp only [Option.getD_some]
  rw [optionContent_out_of_range ci os 0 (by push_cast; omega)]

/-- Witness for C9: a record with two options and correct index 5 gets
stored with both flags false. -/
theorem claim_C9_witness :
    (wellFormed dbEmpty ∧ ¬(candOutOfRange.question = "") ∧
      candOutOfRange.options = some ["A", "B"] ∧
      candOutOfRange.correctIndex = some 5 ∧
      (((["A", "B"] : List String)).length : Int) ≤ 5) ∧
    (validCandidate candOutOfRange = true ∧
      (reseedPartition "m" "t" [candOutOfRange] dbEmpty).2 = 1 ∧
      partitionContent "m" "t" (reseedPartition "m" "t" [candOutOfRange] dbEmpty).1 =
        [(candOutOfRange.question, 2,
          (["A", "B"] : List String).map (fun txt => (txt, false)))]) :=
  ⟨by decide,
   claim_C9_out_of_range_insert "m" "t" candOutOfRange ["A", "B"] 5 dbEmpty
     (by decide) (by decide) (by decide) (by decide) (by decide)⟩

/-- C10: every Question inserted by any of the insert paths — the batched
loop of import.ts, importQuestionsForTopic of importMCQ.ts, the server
script, the import-module.js run, and reseedPartition — is stored with
difficulty 2, whatever the candidate records contain. -/
theorem claim_C10_difficulty_two (m t : String) (bs : Nat) (cands : List Candidate)
    (F : List Nat) (s : DB) (q : Question) :
    (q ∈ (importQuestionsBatched m t bs cands s).1.questions →
      q ∈ s.questions ∨ q.difficulty = 2) ∧
    (q ∈ (importQuestionsForTopic m t cands s).1.questions →
      q ∈ s.questions ∨ q.difficulty = 2) ∧
    (q ∈ (serverImportQuestions m cands s).questions →
      q ∈ s.questions ∨ q.difficulty = 2) ∧
    (q ∈ (importModuleRun m t cands bs F s).questions →
      q ∈ s.questions ∨ q.difficulty = 2) ∧
    (q ∈ (reseedPartition m t cands s).1.questions →
      q ∈ s.questions ∨ q.difficulty = 2) := by
  have hbatched : diffOk s (importQuestionsBatched m t bs cands s).1 := by
    rw [importQuestionsBatched_eq]
    exact diffOk_importOn m t cands (s, 0)
  have hTopic : diffOk s (importQuestionsForTopic m t cands s).1 := by
    unfold importQuestionsForTopic
    rw [importQuestionsBatched_eq]
    exact diffOk_importOn m t cands (s, 0)
  have hModule : diffOk s (importModuleRun m t cands bs F s) := by
    unfold importModuleRun
    exact diffOk_trans (diffOk_clearPhase m (strToUpper t) s)
      (diffOk_runBatches m (strToUpper t) F (chunks bs cands.enum) (clearPhase m (strToUpper t) s))
  have hReseed : diffOk s (reseedPartition m t cands s).1 := by
    have h1 : diffOk s (deleteExistingQuestions m t s) := by
      rw [deleteExistingQuestions_eq]
      exact diffOk_clearPhase m t s
    have h2 : diffOk (deleteExistingQuestions m t s) (reseedPartition m t cands s).1 := by
      unfold reseedPartition importQuestions
      rw [importQuestionsBatched_eq]
      exact diffOk_importOn m t cands (deleteExistingQuestions m t s, 0)
    exact diffOk_trans h1 h2
  exact ⟨hbatched q, hTopic q, (diffOk_serverImport m cands s) q, hModule q, hReseed q⟩

/-- Witness for C10: the concrete question inserted from `candA` into the
empty store carries difficulty 2. -/
theorem claim_C10_witness : qIns ∈ dbEmpty.questions ∨ qIns.difficulty = 2 :=
  (claim_C10_difficulty_two "m" "t" 5 [candA] [] dbEmpty qIns).1 (by decide)

end MCQ
